import Mathlib

/-!
Verification of the block-parallel kernels of the triton_tutorial notebooks:
vector addition (`02_vector_addition.ipynb`), row-wise softmax forward and
backward (`04_softmax_fwd_bwd.ipynb`), the naive row-times-column matrix
multiply and the tiled matrix multiply (the two matmul notebooks).

Modelling choices (shallow embedding):
* a flat GPU buffer is a total function `ℕ → R` from offsets to values;
  offsets beyond the logical extent hold arbitrary values (whatever memory
  contains there);
* machine floating point values are modelled as elements of a linear ordered
  field (exact arithmetic); the `-inf` fill value used by the masked loads of
  the softmax kernels is modelled by the type `TV` which adjoins a bottom
  element to the field;
* `tl.exp` is modelled by `Real.exp` in the claim theorems (generic lemmas are
  stated for an arbitrary exponential-like function);
* a kernel launch is modelled by folding the masked stores of all grid cells
  over the initial buffer contents; each cell contributes the list of
  (offset, value) pairs its `tl.store` writes (mask-true lanes only).
-/

namespace TritonTut

/-- Ceiling division of natural numbers, as computed by `triton.cdiv`. -/
def cdiv (a b : ℕ) : ℕ := (a + b - 1) / b

/-- Doubling loop computing the smallest power of two at least `n`, starting
from candidate `p` with the given fuel. -/
def nextPow2Go (n : ℕ) : ℕ → ℕ → ℕ
  | 0, p => p
  | fuel + 1, p => if n ≤ p then p else nextPow2Go n fuel (2 * p)

/-- Smallest power of two that is at least `n`, as computed by
`triton.next_power_of_2` (with `next_power_of_2 0 = 1`). -/
def nextPow2 (n : ℕ) : ℕ := nextPow2Go n n 1

theorem le_nextPow2Go (n : ℕ) : ∀ fuel p, n ≤ p * 2 ^ fuel →
    n ≤ nextPow2Go n fuel p := by
  intro fuel
  induction fuel with
  | zero => intro p hp; simpa using hp
  | succ fuel ih =>
    intro p hp
    rw [nextPow2Go]
    split
    · assumption
    · refine ih (2 * p) ?_
      calc n ≤ p * 2 ^ (fuel + 1) := hp
        _ = 2 * p * 2 ^ fuel := by ring

theorem le_nextPow2 (n : ℕ) : n ≤ nextPow2 n := by
  refine le_nextPow2Go n n 1 ?_
  rw [one_mul]
  exact le_of_lt (Nat.lt_two_pow n)

theorem le_cdiv_mul (N S : ℕ) (hS : 0 < S) : N ≤ cdiv N S * S := by
  unfold cdiv
  have h1 := Nat.div_add_mod (N + S - 1) S
  have h2 := Nat.mod_lt (N + S - 1) hS
  have h3 : (N + S - 1) / S * S = S * ((N + S - 1) / S) := Nat.mul_comm _ _
  rw [h3]
  set q := (N + S - 1) / S with hq
  set a := S * q with ha
  omega

theorem div_lt_cdiv {n N S : ℕ} (hS : 0 < S) (h : n < N) : n / S < cdiv N S := by
  have h1 : n < cdiv N S * S := lt_of_lt_of_le h (le_cdiv_mul N S hS)
  exact (Nat.div_lt_iff_lt_mul hS).mpr h1

/-- Uniqueness of the row/column decomposition of a flat row-major offset. -/
theorem rowcol_unique {C a b i j : ℕ} (hi : i < C) (hj : j < C)
    (h : a * C + i = b * C + j) : a = b ∧ i = j := by
  have hC : 0 < C := lt_of_le_of_lt (Nat.zero_le i) hi
  have hdiv : (a * C + i) / C = (b * C + j) / C := by rw [h]
  have hda : (a * C + i) / C = a := by
    rw [Nat.add_comm, Nat.add_mul_div_right _ _ hC, Nat.div_eq_of_lt hi,
      Nat.zero_add]
  have hdb : (b * C + j) / C = b := by
    rw [Nat.add_comm, Nat.add_mul_div_right _ _ hC, Nat.div_eq_of_lt hj,
      Nat.zero_add]
  have hab : a = b := by rw [← hda, ← hdb, hdiv]
  refine ⟨hab, ?_⟩
  subst hab
  omega

section StoreMachinery

variable {α : Type}

/-- Apply a list of (offset, value) writes to a buffer, in order.  This models
one `tl.store` call: the list contains exactly the mask-true lanes. -/
def storeWrites (buf : ℕ → α) : List (ℕ × α) → ℕ → α
  | [] => buf
  | p :: rest => storeWrites (Function.update buf p.1 p.2) rest

/-- Run the stores of every grid cell of a launch, in grid order. -/
def runStores (buf : ℕ → α) (wss : List (List (ℕ × α))) : ℕ → α :=
  wss.foldl storeWrites buf

theorem storeWrites_of_not_written (buf : ℕ → α) (ws : List (ℕ × α)) (o : ℕ)
    (h : ∀ p ∈ ws, p.1 ≠ o) : storeWrites buf ws o = buf o := by
  induction ws generalizing buf with
  | nil => rfl
  | cons q rest ih =>
    have hq : q.1 ≠ o := h q (List.mem_cons_self _ _)
    have hrest : ∀ p ∈ rest, p.1 ≠ o := fun p hp => h p (List.mem_cons_of_mem _ hp)
    rw [storeWrites, ih _ hrest, Function.update_noteq (Ne.symm hq)]

theorem storeWrites_agree (buf : ℕ → α) (ws : List (ℕ × α)) (o : ℕ) (v : α)
    (hmem : (o, v) ∈ ws) (hag : ∀ p ∈ ws, p.1 = o → p.2 = v) :
    storeWrites buf ws o = v := by
  induction ws generalizing buf with
  | nil => exact absurd hmem (List.not_mem_nil _)
  | cons q rest ih =>
    by_cases hrest : ∃ p ∈ rest, p.1 = o
    · obtain ⟨p, hp, hpo⟩ := hrest
      have hpv : p.2 = v := hag p (List.mem_cons_of_mem _ hp) hpo
      have hpov : (o, v) ∈ rest := by
        have : p = (o, v) := Prod.ext hpo hpv
        rwa [this] at hp
      exact ih (Function.update buf q.1 q.2) hpov
        (fun p hp hpo => hag p (List.mem_cons_of_mem _ hp) hpo)
    · push_neg at hrest
      have hqo : q = (o, v) := by
        rcases List.mem_cons.mp hmem with h | h
        · exact h.symm
        · exact absurd rfl (hrest _ h)
      rw [storeWrites, storeWrites_of_not_written _ _ _ hrest, hqo]
      simp

theorem runStores_of_not_written (buf : ℕ → α) (wss : List (List (ℕ × α)))
    (o : ℕ) (h : ∀ ws ∈ wss, ∀ p ∈ ws, p.1 ≠ o) : runStores buf wss o = buf o := by
  induction wss generalizing buf with
  | nil => rfl
  | cons w rest ih =>
    have h1 : ∀ p ∈ w, p.1 ≠ o := h w (List.mem_cons_self _ _)
    have h2 : ∀ ws ∈ rest, ∀ p ∈ ws, p.1 ≠ o :=
      fun ws hws => h ws (List.mem_cons_of_mem _ hws)
    rw [runStores, List.foldl_cons, ← runStores, ih _ h2,
      storeWrites_of_not_written _ _ _ h1]

/-- If some grid cell writes value `v` at offset `o` and every write to `o`,
from any cell, stores that same value, the launch result at `o` is `v`. -/
theorem runStores_agree (buf : ℕ → α) (wss : List (List (ℕ × α))) (o : ℕ) (v : α)
    (hmem : ∃ ws ∈ wss, (o, v) ∈ ws)
    (hag : ∀ ws ∈ wss, ∀ p ∈ ws, p.1 = o → p.2 = v) :
    runStores buf wss o = v := by
  induction wss generalizing buf with
  | nil => obtain ⟨ws, hws, _⟩ := hmem; exact absurd hws (List.not_mem_nil _)
  | cons w rest ih =>
    rw [runStores, List.foldl_cons, ← runStores]
    by_cases hrest : ∃ ws ∈ rest, ∃ p ∈ ws, p.1 = o
    · obtain ⟨ws, hws, p, hp, hpo⟩ := hrest
      have hpv : p.2 = v := hag ws (List.mem_cons_of_mem _ hws) p hp hpo
      have : (o, v) ∈ ws := by
        have hpe : p = (o, v) := Prod.ext hpo hpv
        rwa [hpe] at hp
      exact ih _ ⟨ws, hws, this⟩
        (fun ws hws p hp hpo => hag ws (List.mem_cons_of_mem _ hws) p hp hpo)
    · push_neg at hrest
      have hnr : ∀ ws ∈ rest, ∀ p ∈ ws, p.1 ≠ o := hrest
      rw [runStores_of_not_written _ _ _ hnr]
      have hw : (o, v) ∈ w := by
        obtain ⟨ws, hws, hov⟩ := hmem
        rcases List.mem_cons.mp hws with h | h
        · rwa [← h]
        · exact absurd rfl (hnr ws h (o, v) hov)
      exact storeWrites_agree _ _ _ _ hw (fun p hp => hag w (List.mem_cons_self _ _) p hp)

end StoreMachinery

section SumHelpers

variable {R : Type} [CommRing R]

theorem sum_range_blocks (B n : ℕ) (g : ℕ → R) :
    ∑ k ∈ Finset.range n, ∑ t ∈ Finset.range B, g (k * B + t) =
      ∑ s ∈ Finset.range (n * B), g s := by
  induction n with
  | zero => simp
  | succ n ih =>
    rw [Finset.sum_range_succ, ih, Nat.succ_mul, Finset.sum_range_add]

theorem sum_range_ite_trunc {m n : ℕ} (h : m ≤ n) (g : ℕ → R) :
    ∑ s ∈ Finset.range n, (if s < m then g s else 0) = ∑ s ∈ Finset.range m, g s := by
  rw [← Finset.sum_subset (Finset.range_subset.mpr h)
    (fun x _ hx => if_neg (by simpa using hx))]
  exact Finset.sum_congr rfl (fun x hx => if_pos (Finset.mem_range.mp hx))

theorem sum_range_tail_zero {C S : ℕ} (h : C ≤ S) (f : ℕ → R)
    (htail : ∀ i, C ≤ i → f i = 0) :
    ∑ i ∈ Finset.range S, f i = ∑ i ∈ Finset.range C, f i :=
  (Finset.sum_subset (Finset.range_subset.mpr h)
    (fun x _ hx => htail x (by simpa using hx))).symm

theorem ite_mul_ite_zero (p q : Prop) [Decidable p] [Decidable q] (a b : R) :
    (if p then a else 0) * (if q then b else 0) = if p ∧ q then a * b else 0 := by
  by_cases h1 : p <;> by_cases h2 : q <;> simp [h1, h2]

end SumHelpers

section VectorAdd

variable {R : Type} [CommRing R]

/-- Writes performed by one cell of `add_kernel` (`02_vector_addition.ipynb`):
offsets `pid * BLOCK_SIZE + tl.arange(0, BLOCK_SIZE)` masked by
`offsets < n_elements`; the stored value is the sum of the two masked loads. -/
def addKernelWrites (x y : ℕ → R) (N S pid : ℕ) : List (ℕ × R) :=
  (List.range S).filterMap fun i =>
    if pid * S + i < N then some (pid * S + i, x (pid * S + i) + y (pid * S + i))
    else none

/-- Launch of `add_kernel` on a 1-D grid of `cdiv N S` cells, as set up by the
host function `add`. -/
def addLaunch (x y init : ℕ → R) (N S : ℕ) : ℕ → R :=
  runStores init ((List.range (cdiv N S)).map (addKernelWrites x y N S))

/-- Host function `add` from `02_vector_addition.ipynb`: block size 1024,
output allocated by `torch.empty_like` (arbitrary initial contents `init`). -/
def addHost (x y init : ℕ → R) (N : ℕ) : ℕ → R :=
  addLaunch x y init N 1024

theorem mem_addKernelWrites {x y : ℕ → R} {N S pid : ℕ} {o : ℕ} {v : R} :
    (o, v) ∈ addKernelWrites x y N S pid ↔
      ∃ i, i < S ∧ pid * S + i = o ∧ o < N ∧ v = x o + y o := by
  simp only [addKernelWrites, List.mem_filterMap, List.mem_range,
    Option.ite_none_right_eq_some, Option.some.injEq, Prod.mk.injEq]
  constructor
  · rintro ⟨i, hi, hlt, ho, hv⟩
    exact ⟨i, hi, ho, ho ▸ hlt, ho ▸ hv.symm⟩
  · rintro ⟨i, hi, ho, hlt, hv⟩
    exact ⟨i, hi, ho ▸ hlt, ho, ho ▸ hv.symm⟩

theorem addLaunch_apply (x y init : ℕ → R) (N S : ℕ) (hS : 0 < S)
    {n : ℕ} (hn : n < N) : addLaunch x y init N S n = x n + y n := by
  apply runStores_agree
  · refine ⟨addKernelWrites x y N S (n / S), List.mem_map_of_mem _ ?_, ?_⟩
    · exact List.mem_range.mpr (div_lt_cdiv hS hn)
    · refine mem_addKernelWrites.mpr ⟨n % S, Nat.mod_lt _ hS, ?_, hn, rfl⟩
      rw [Nat.mul_comm]
      exact Nat.div_add_mod n S
  · intro ws hws p hp hpo
    obtain ⟨pid, _, rfl⟩ := List.mem_map.mp hws
    obtain ⟨i, _, _, _, hv⟩ := mem_addKernelWrites.mp (by
      have : p = (p.1, p.2) := rfl
      rw [this] at hp; exact hp)
    rw [hv, hpo]

end VectorAdd

/-- Claim C6: for all `N` and any block size `S`, the vector-add launch output
equals the elementwise sum of its two length-`N` inputs at every index in
`[0, N)`, including when `N` is not a multiple of `S` (partially masked final
block). -/
theorem claim_C6_vector_add (R : Type) [CommRing R] (x y init : ℕ → R)
    (N S : ℕ) (hS : 0 < S) (n : ℕ) (hn : n < N) :
    addLaunch x y init N S n = x n + y n :=
  addLaunch_apply x y init N S hS hn

/-- Witness for C6 at `N = 1000`, `S = 1024` over `ℤ` (the tail-masked case
run in the notebook). -/
theorem claim_C6_witness :
    0 < 1024 ∧ (999 : ℕ) < 1000 ∧
      addLaunch (fun n => (n : ℤ)) (fun n => (n : ℤ)) (fun _ => 0) 1000 1024 999 =
        (999 : ℤ) + 999 :=
  ⟨by decide, by decide,
    claim_C6_vector_add ℤ (fun n => (n : ℤ)) (fun n => (n : ℤ)) (fun _ => 0)
      1000 1024 (by decide) 999 (by decide)⟩

/-- Value of a lane of a masked float block: either a finite field element or
the `-float('inf')` fill used by the masked loads of the softmax kernels. -/
inductive TV (K : Type) where
  | ninf : TV K
  | val : K → TV K
deriving DecidableEq

section SoftmaxDefs

variable {K : Type} [LinearOrderedField K]

/-- IEEE maximum with `-inf` absorbed, the lane operation of a `tl.max`
reduction over a block containing `-inf` fill lanes. -/
def TV.maxv : TV K → TV K → TV K
  | TV.ninf, b => b
  | TV.val a, TV.ninf => TV.val a
  | TV.val a, TV.val b => TV.val (max a b)

/-- Subtraction on loaded lanes: `-inf - m = -inf` (IEEE).  The cases with an
infinite subtrahend would be IEEE special values (`NaN` / `+inf`); they are
unreachable in the kernels, where the subtrahend is the row maximum of a
nonempty row and hence finite, and are mapped to `ninf`. -/
def TV.sub : TV K → TV K → TV K
  | TV.val a, TV.val b => TV.val (a - b)
  | _, _ => TV.ninf

/-- Exponential on loaded lanes: `exp(-inf) = 0` (IEEE); `kexp` models
`tl.exp` on finite lanes. -/
def TV.exp (kexp : K → K) : TV K → K
  | TV.ninf => 0
  | TV.val a => kexp a

/-- Reduction `tl.max(row, axis=0)` over block lanes `0, …, S-1`. -/
def blockMax (f : ℕ → TV K) : ℕ → TV K
  | 0 => TV.ninf
  | S + 1 => TV.maxv (blockMax f S) (f S)

/-- Masked row load with fill `-inf`:
`tl.load(x_ptr + row_offset, mask=row_offset < row_start + x_cols,
other=-float('inf'))`. -/
def rowLoadNinf (x : ℕ → K) (rs C i : ℕ) : TV K :=
  if rs + i < rs + C then TV.val (x (rs + i)) else TV.ninf

/-- Maximum of `g 0, …, g n`, by the same left-to-right reduction shape the
hardware uses. -/
def foldMax (g : ℕ → K) : ℕ → K
  | 0 => g 0
  | n + 1 => max (foldMax g n) (g (n + 1))

/-- Maximum of the true (unmasked) extent of a row, used on the specification
side of the softmax claims. -/
def rowMax (x : ℕ → K) (rs C : ℕ) : K :=
  foldMax (fun i => x (rs + i)) (C - 1)

theorem le_foldMax (g : ℕ → K) : ∀ n i, i ≤ n → g i ≤ foldMax g n := by
  intro n
  induction n with
  | zero => intro i hi; rw [Nat.le_zero.mp hi]; exact le_refl _
  | succ n ih =>
    intro i hi
    rcases Nat.lt_or_ge i (n + 1) with h | h
    · exact le_trans (ih i (by omega)) (le_max_left _ _)
    · have : i = n + 1 := by omega
      rw [this]
      exact le_max_right _ _

theorem foldMax_le (g : ℕ → K) {b : K} : ∀ n, (∀ i, i ≤ n → g i ≤ b) →
    foldMax g n ≤ b := by
  intro n
  induction n with
  | zero => intro h; exact h 0 (le_refl _)
  | succ n ih =>
    intro h
    exact max_le (ih (fun i hi => h i (by omega))) (h (n + 1) (le_refl _))

/-- The fold computing `rowMax` is the lattice supremum of the row extent. -/
theorem rowMax_eq_sup' (x : ℕ → K) (rs C : ℕ) (hC : C ≠ 0) :
    rowMax x rs C =
      (Finset.range C).sup' (Finset.nonempty_range_iff.mpr hC)
        (fun i => x (rs + i)) := by
  refine le_antisymm ?_ ?_
  · refine foldMax_le (fun i => x (rs + i)) (C - 1) (fun i hi => ?_)
    exact Finset.le_sup' (fun i => x (rs + i)) (Finset.mem_range.mpr (by omega))
  · refine Finset.sup'_le _ _ (fun i hi => ?_)
    refine le_foldMax (fun i => x (rs + i)) (C - 1) i ?_
    have := Finset.mem_range.mp hi
    omega

theorem TV.maxv_ninf_right (a : TV K) : TV.maxv a TV.ninf = a := by
  cases a <;> rfl

theorem blockMax_of_val {f : ℕ → TV K} (g : ℕ → K) :
    ∀ n : ℕ, n ≠ 0 → (∀ i, i < n → f i = TV.val (g i)) →
      blockMax f n = TV.val (foldMax g (n - 1)) := by
  intro n
  induction n with
  | zero => intro hn; exact absurd rfl hn
  | succ n ih =>
    intro _ hval
    rcases Nat.eq_zero_or_pos n with hn0 | hn0
    · subst hn0
      have h0 := hval 0 (by omega)
      simp [blockMax, TV.maxv, h0, foldMax]
    · have hstep : blockMax f (n + 1) = TV.maxv (blockMax f n) (f n) := rfl
      rw [hstep, ih (by omega) (fun i hi => hval i (by omega)), hval n (by omega)]
      have hn1 : n - 1 + 1 = n := by omega
      have hfold : foldMax g (n + 1 - 1) = max (foldMax g (n - 1)) (g n) := by
        have h2 : n + 1 - 1 = (n - 1) + 1 := by omega
        rw [h2, foldMax, hn1]
      rw [hfold]
      rfl

theorem blockMax_stable {f : ℕ → TV K} {C : ℕ}
    (htail : ∀ i, C ≤ i → f i = TV.ninf) :
    ∀ d : ℕ, blockMax f (C + d) = blockMax f C := by
  intro d
  induction d with
  | zero => rfl
  | succ d ih =>
    have hstep : blockMax f (C + (d + 1)) = TV.maxv (blockMax f (C + d)) (f (C + d)) := rfl
    rw [hstep, ih, htail (C + d) (by omega), TV.maxv_ninf_right]

theorem rowLoadNinf_lt {x : ℕ → K} {rs C i : ℕ} (h : i < C) :
    rowLoadNinf x rs C i = TV.val (x (rs + i)) :=
  if_pos (by omega)

theorem rowLoadNinf_ge {x : ℕ → K} {rs C i : ℕ} (h : C ≤ i) :
    rowLoadNinf x rs C i = TV.ninf :=
  if_neg (by omega)

theorem blockMax_rowLoad (x : ℕ → K) (rs C : ℕ) (hC : C ≠ 0) {S : ℕ}
    (hCS : C ≤ S) :
    blockMax (rowLoadNinf x rs C) S = TV.val (rowMax x rs C) := by
  obtain ⟨d, rfl⟩ : ∃ d, S = C + d := ⟨S - C, by omega⟩
  rw [blockMax_stable (fun i hi => rowLoadNinf_ge hi) d]
  exact blockMax_of_val _ C hC (fun i hi => rowLoadNinf_lt hi)

variable (kexp : K → K)

/-- Row maximum computed inside the kernels: `tl.max(row, axis=0)` over all
`BLOCK_SIZE` lanes of the masked load. -/
def sfM (x : ℕ → K) (rs C S : ℕ) : TV K := blockMax (rowLoadNinf x rs C) S

/-- Numerator lane `tl.exp(row - tl.max(row, axis=0))` of
`softmax_fwd_kernel`. -/
def sfNum (x : ℕ → K) (rs C S i : ℕ) : K :=
  TV.exp kexp (TV.sub (rowLoadNinf x rs C i) (sfM x rs C S))

/-- Denominator `tl.sum(num, axis=0)` of `softmax_fwd_kernel`. -/
def sfDenom (x : ℕ → K) (rs C S : ℕ) : K :=
  ∑ i ∈ Finset.range S, sfNum kexp x rs C S i

/-- Output lane `num / denom` of `softmax_fwd_kernel`. -/
def sfOut (x : ℕ → K) (rs C S i : ℕ) : K :=
  sfNum kexp x rs C S i / sfDenom kexp x rs C S

/-- Writes of one `softmax_fwd_kernel` cell: offsets
`row_start + tl.arange(0, BLOCK_SIZE)` masked by
`row_offset < row_start + x_cols`. -/
def sfWrites (x : ℕ → K) (C S pid : ℕ) : List (ℕ × K) :=
  (List.range S).filterMap fun i =>
    if pid * C + i < pid * C + C then
      some (pid * C + i, sfOut kexp x (pid * C) C S i)
    else none

/-- Launch of `softmax_fwd`: 1-D grid with one cell per row, block size
`next_power_of_2(x_cols)`, output allocated by `torch.empty_like` (arbitrary
initial contents `init`). -/
def softmaxFwd (x init : ℕ → K) (Rr C : ℕ) : ℕ → K :=
  runStores init ((List.range Rr).map (sfWrites kexp x C (nextPow2 C)))

theorem sfNum_lt {x : ℕ → K} {rs C S i : ℕ} (hC : C ≠ 0) (hCS : C ≤ S)
    (hi : i < C) :
    sfNum kexp x rs C S i = kexp (x (rs + i) - rowMax x rs C) := by
  rw [sfNum, sfM, blockMax_rowLoad x rs C hC hCS, rowLoadNinf_lt hi]
  rfl

theorem sfNum_ge {x : ℕ → K} {rs C S i : ℕ} (hi : C ≤ i) :
    sfNum kexp x rs C S i = 0 := by
  rw [sfNum, rowLoadNinf_ge hi]
  cases sfM x rs C S <;> rfl

theorem sfDenom_eq {x : ℕ → K} {rs C S : ℕ} (hC : C ≠ 0) (hCS : C ≤ S) :
    sfDenom kexp x rs C S = ∑ i ∈ Finset.range C, kexp (x (rs + i) - rowMax x rs C) := by
  rw [sfDenom, sum_range_tail_zero hCS _ (fun i hi => sfNum_ge kexp hi)]
  exact Finset.sum_congr rfl (fun i hi => sfNum_lt kexp hC hCS (Finset.mem_range.mp hi))

theorem sfDenom_pos {x : ℕ → K} {rs C S : ℕ} (hpos : ∀ t, 0 < kexp t)
    (hC : C ≠ 0) (hCS : C ≤ S) : 0 < sfDenom kexp x rs C S := by
  rw [sfDenom_eq kexp hC hCS]
  refine Finset.sum_pos (fun i _ => hpos _) ?_
  exact Finset.nonempty_range_iff.mpr hC

theorem mem_sfWrites {kexp : K → K} {x : ℕ → K} {C S pid o : ℕ} {v : K} :
    (o, v) ∈ sfWrites kexp x C S pid ↔
      ∃ i, i < S ∧ i < C ∧ o = pid * C + i ∧ v = sfOut kexp x (pid * C) C S i := by
  simp only [sfWrites, List.mem_filterMap, List.mem_range,
    Option.ite_none_right_eq_some, Option.some.injEq, Prod.mk.injEq]
  constructor
  · rintro ⟨i, hi, hlt, ho, hv⟩
    exact ⟨i, hi, by omega, ho.symm, hv.symm⟩
  · rintro ⟨i, hi, hiC, ho, hv⟩
    exact ⟨i, hi, by omega, ho.symm, hv.symm⟩

theorem softmaxFwd_apply (x init : ℕ → K) {Rr C r j : ℕ} (hr : r < Rr)
    (hj : j < C) :
    softmaxFwd kexp x init Rr C (r * C + j) =
      sfOut kexp x (r * C) C (nextPow2 C) j := by
  apply runStores_agree
  · refine ⟨sfWrites kexp x C (nextPow2 C) r, List.mem_map_of_mem _ (List.mem_range.mpr hr), ?_⟩
    exact mem_sfWrites.mpr ⟨j, lt_of_lt_of_le hj (le_nextPow2 C), hj, rfl, rfl⟩
  · intro ws hws p hp hpo
    obtain ⟨pid, _, rfl⟩ := List.mem_map.mp hws
    obtain ⟨i, _, hiC, ho, hv⟩ := mem_sfWrites.mp (show (p.1, p.2) ∈ _ from hp)
    rw [ho] at hpo
    obtain ⟨hpid, hij⟩ := rowcol_unique hiC hj hpo
    rw [hv, hpid, hij]

end SoftmaxDefs

/-- Claim C3: for every `R × C` input (with a nonempty row extent),
`softmax_fwd` processes each row in one grid cell — loading the row with fill
`-inf` for the masked tail, computing the row max `m`, `e = exp(row - m)`,
`d = sum e`, and storing `e / d` under the row mask — and consequently every
output row sums to `1` over its true (unmasked) extent. -/
theorem claim_C3_softmax_forward_rows_sum_to_one (x init : ℕ → ℝ)
    (Rr C : ℕ) (hC : 0 < C) (r : ℕ) (hr : r < Rr) :
    ∑ j ∈ Finset.range C, softmaxFwd Real.exp x init Rr C (r * C + j) = 1 := by
  have hC0 : C ≠ 0 := by omega
  have hCS : C ≤ nextPow2 C := le_nextPow2 C
  have happly : ∀ j ∈ Finset.range C,
      softmaxFwd Real.exp x init Rr C (r * C + j) =
        sfOut Real.exp x (r * C) C (nextPow2 C) j :=
    fun j hj => softmaxFwd_apply Real.exp x init hr (Finset.mem_range.mp hj)
  rw [Finset.sum_congr rfl happly]
  have hden : sfDenom Real.exp x (r * C) C (nextPow2 C) ≠ 0 :=
    ne_of_gt (sfDenom_pos Real.exp (fun t => Real.exp_pos t) hC0 hCS)
  have hsum : ∑ j ∈ Finset.range C, sfNum Real.exp x (r * C) C (nextPow2 C) j =
      sfDenom Real.exp x (r * C) C (nextPow2 C) := by
    rw [sfDenom, sum_range_tail_zero hCS _ (fun i hi => sfNum_ge Real.exp hi)]
  unfold sfOut
  rw [← Finset.sum_div, hsum, div_self hden]

/-- Witness for C3 on a concrete 1 × 1 input. -/
theorem claim_C3_witness :
    0 < 1 ∧ (0 : ℕ) < 1 ∧
      ∑ j ∈ Finset.range 1,
        softmaxFwd Real.exp (fun _ => (0 : ℝ)) (fun _ => 0) 1 1 (0 * 1 + j) = 1 :=
  ⟨by decide, by decide,
    claim_C3_softmax_forward_rows_sum_to_one (fun _ => 0) (fun _ => 0) 1 1
      (by decide) 0 (by decide)⟩

section SoftmaxBwd

variable {K : Type} [LinearOrderedField K]
variable (kexp : K → K)

/-- Masked load of the upstream gradient row with fill `0`:
`tl.load(dy_ptr + row_offset, mask=mask, other=0.0)` in `softmax_bwd_kernel`. -/
def sbDyRow (dy : ℕ → K) (rs C i : ℕ) : K :=
  if rs + i < rs + C then dy (rs + i) else 0

/-- Kernel line `inverted = 1 / denom`; the backward kernel recomputes the
forward intermediates (`x_normed`, `num = tl.exp(x_normed)`,
`denom = tl.sum(num, axis=0)`), which are the same expressions as the forward
kernel's `sfNum` and `sfDenom`. -/
def sbInv (x : ℕ → K) (rs C S : ℕ) : K := 1 / sfDenom kexp x rs C S

/-- Kernel line `num_grad = dy_row * inverted`. -/
def sbNumGradA (x dy : ℕ → K) (rs C S i : ℕ) : K :=
  sbDyRow dy rs C i * sbInv kexp x rs C S

/-- Kernel lines `inverted_grad = dy_row * num;
inverted_grad = tl.sum(inverted_grad, axis=0)`. -/
def sbInvGrad (x dy : ℕ → K) (rs C S : ℕ) : K :=
  ∑ i ∈ Finset.range S, sbDyRow dy rs C i * sfNum kexp x rs C S i

/-- Kernel line `denom_grad = (-1 / (denom * denom)) * inverted_grad`. -/
def sbDenomGrad (x dy : ℕ → K) (rs C S : ℕ) : K :=
  (-1 / (sfDenom kexp x rs C S * sfDenom kexp x rs C S)) * sbInvGrad kexp x dy rs C S

/-- Kernel line `num_grad += tl.full(num_grad.shape, 1.0, ...) * denom_grad`. -/
def sbNumGrad (x dy : ℕ → K) (rs C S i : ℕ) : K :=
  sbNumGradA kexp x dy rs C S i + 1 * sbDenomGrad kexp x dy rs C S

/-- Kernel line `normed_grad = num_grad * tl.exp(x_normed)`. -/
def sbNormedGrad (x dy : ℕ → K) (rs C S i : ℕ) : K :=
  sbNumGrad kexp x dy rs C S i *
    TV.exp kexp (TV.sub (rowLoadNinf x rs C i) (sfM x rs C S))

/-- Kernel lines `max_grad = -normed_grad; max_grad = tl.sum(max_grad, axis=0)`. -/
def sbMaxGrad (x dy : ℕ → K) (rs C S : ℕ) : K :=
  ∑ i ∈ Finset.range S, -sbNormedGrad kexp x dy rs C S i

/-- Kernel line `x_grad_2 = max_grad * tl.where(x_row == tl.max(x_row, axis=0),
tl.full(..., 1.0, ...), tl.zeros(...))`: the full `max_grad` is routed to every
lane equal to the row maximum (non-strict equality, so ties all receive it). -/
def sbXGrad2 (x dy : ℕ → K) (rs C S i : ℕ) : K :=
  sbMaxGrad kexp x dy rs C S *
    (if rowLoadNinf x rs C i = sfM x rs C S then 1 else 0)

/-- Stored lane of `softmax_bwd_kernel`: `x_grad + x_grad_2` with
`x_grad = normed_grad`. -/
def sbStore (x dy : ℕ → K) (rs C S i : ℕ) : K :=
  sbNormedGrad kexp x dy rs C S i + sbXGrad2 kexp x dy rs C S i

/-- Writes of one `softmax_bwd_kernel` cell, masked exactly like the forward
kernel. -/
def sbWrites (x dy : ℕ → K) (C S pid : ℕ) : List (ℕ × K) :=
  (List.range S).filterMap fun i =>
    if pid * C + i < pid * C + C then
      some (pid * C + i, sbStore kexp x dy (pid * C) C S i)
    else none

/-- Launch of the backward pass as done by `Softmax.backward`: 1-D grid with
one cell per row, block size `next_power_of_2(x_cols)`, output allocated by
`torch.empty_like`. -/
def softmaxBwd (x dy init : ℕ → K) (Rr C : ℕ) : ℕ → K :=
  runStores init ((List.range Rr).map (sbWrites kexp x dy C (nextPow2 C)))

/-- Specification §4.6 intermediates, over the true row extent:
`e = exp(x - m)` with `m` the row maximum. -/
def specE (x : ℕ → K) (rs C i : ℕ) : K := kexp (x (rs + i) - rowMax x rs C)

/-- Specification §4.6: `d = sum(e)` over the row extent. -/
def specD (x : ℕ → K) (rs C : ℕ) : K := ∑ i ∈ Finset.range C, specE kexp x rs C i

/-- Specification §4.6 step 2: `inv_grad = sum_reduce(dy * e)`. -/
def specInvGrad (x dy : ℕ → K) (rs C : ℕ) : K :=
  ∑ i ∈ Finset.range C, dy (rs + i) * specE kexp x rs C i

/-- Specification §4.6 step 3: `denom_grad = -inv_grad / d^2`. -/
def specDenomGrad (x dy : ℕ → K) (rs C : ℕ) : K :=
  -specInvGrad kexp x dy rs C / specD kexp x rs C ^ 2

/-- Specification §4.6 steps 1 and 4: `num_grad = dy * inv + denom_grad` with
`inv = 1/d`. -/
def specNumGrad (x dy : ℕ → K) (rs C i : ℕ) : K :=
  dy (rs + i) * (1 / specD kexp x rs C) + specDenomGrad kexp x dy rs C

/-- Specification §4.6 step 5: `normed_grad = num_grad * e`. -/
def specNormedGrad (x dy : ℕ → K) (rs C i : ℕ) : K :=
  specNumGrad kexp x dy rs C i * specE kexp x rs C i

/-- Specification §4.6 step 6: `max_grad = -sum_reduce(normed_grad)`. -/
def specMaxGrad (x dy : ℕ → K) (rs C : ℕ) : K :=
  -∑ i ∈ Finset.range C, specNormedGrad kexp x dy rs C i

/-- Specification §4.6 step 7: final gradient
`normed_grad + max_grad * indicator(x == row_max)`. -/
def specBwdGrad (x dy : ℕ → K) (rs C i : ℕ) : K :=
  specNormedGrad kexp x dy rs C i +
    specMaxGrad kexp x dy rs C * (if x (rs + i) = rowMax x rs C then 1 else 0)

theorem neg_one_div_mul_eq (d g : K) : -1 / (d * d) * g = -g / d ^ 2 := by
  rw [div_mul_eq_mul_div, neg_one_mul, pow_two]

theorem sbDyRow_lt {dy : ℕ → K} {rs C i : ℕ} (h : i < C) :
    sbDyRow dy rs C i = dy (rs + i) := if_pos (by omega)

theorem sbDyRow_ge {dy : ℕ → K} {rs C i : ℕ} (h : C ≤ i) :
    sbDyRow dy rs C i = 0 := if_neg (by omega)

theorem sfDenom_eq_specD {x : ℕ → K} {rs C S : ℕ} (hC : C ≠ 0) (hCS : C ≤ S) :
    sfDenom kexp x rs C S = specD kexp x rs C :=
  sfDenom_eq kexp hC hCS

theorem sbInvGrad_eq {x dy : ℕ → K} {rs C S : ℕ} (hC : C ≠ 0) (hCS : C ≤ S) :
    sbInvGrad kexp x dy rs C S = specInvGrad kexp x dy rs C := by
  rw [sbInvGrad, sum_range_tail_zero hCS _
    (fun i hi => by rw [sbDyRow_ge hi, zero_mul])]
  exact Finset.sum_congr rfl (fun i hi => by
    rw [sbDyRow_lt (Finset.mem_range.mp hi),
      sfNum_lt kexp hC hCS (Finset.mem_range.mp hi)]
    rfl)

theorem sbDenomGrad_eq {x dy : ℕ → K} {rs C S : ℕ} (hC : C ≠ 0) (hCS : C ≤ S) :
    sbDenomGrad kexp x dy rs C S = specDenomGrad kexp x dy rs C := by
  rw [sbDenomGrad, sbInvGrad_eq kexp hC hCS, sfDenom_eq_specD kexp hC hCS,
    specDenomGrad, neg_one_div_mul_eq]

theorem sbNormedGrad_lt {x dy : ℕ → K} {rs C S i : ℕ} (hC : C ≠ 0)
    (hCS : C ≤ S) (hi : i < C) :
    sbNormedGrad kexp x dy rs C S i = specNormedGrad kexp x dy rs C i := by
  have hnum : TV.exp kexp (TV.sub (rowLoadNinf x rs C i) (sfM x rs C S)) =
      specE kexp x rs C i := by
    rw [rowLoadNinf_lt hi, sfM, blockMax_rowLoad x rs C hC hCS]
    rfl
  rw [sbNormedGrad, hnum, sbNumGrad, sbNumGradA, sbDyRow_lt hi, sbInv,
    sfDenom_eq_specD kexp hC hCS, sbDenomGrad_eq kexp hC hCS, one_mul,
    specNormedGrad, specNumGrad]

theorem sbNormedGrad_ge {x dy : ℕ → K} {rs C S i : ℕ} (hi : C ≤ i) :
    sbNormedGrad kexp x dy rs C S i = 0 := by
  have hload : rowLoadNinf x rs C i = TV.ninf := rowLoadNinf_ge hi
  have hexp : TV.exp kexp (TV.sub (rowLoadNinf x rs C i) (sfM x rs C S)) = 0 := by
    rw [hload]
    cases sfM x rs C S <;> rfl
  rw [sbNormedGrad, hexp, mul_zero]

theorem sbMaxGrad_eq {x dy : ℕ → K} {rs C S : ℕ} (hC : C ≠ 0) (hCS : C ≤ S) :
    sbMaxGrad kexp x dy rs C S = specMaxGrad kexp x dy rs C := by
  rw [sbMaxGrad, sum_range_tail_zero hCS _
    (fun i hi => by rw [sbNormedGrad_ge kexp hi, neg_zero]),
    Finset.sum_neg_distrib, specMaxGrad]
  congr 1
  exact Finset.sum_congr rfl
    (fun i hi => sbNormedGrad_lt kexp hC hCS (Finset.mem_range.mp hi))

theorem sbStore_eq_spec {x dy : ℕ → K} {rs C S i : ℕ} (hC : C ≠ 0)
    (hCS : C ≤ S) (hi : i < C) :
    sbStore kexp x dy rs C S i = specBwdGrad kexp x dy rs C i := by
  have hind : (rowLoadNinf x rs C i = sfM x rs C S) ↔
      (x (rs + i) = rowMax x rs C) := by
    rw [rowLoadNinf_lt hi, sfM, blockMax_rowLoad x rs C hC hCS]
    exact ⟨fun h => by injection h, fun h => by rw [h]⟩
  rw [sbStore, sbXGrad2, sbNormedGrad_lt kexp hC hCS hi,
    sbMaxGrad_eq kexp hC hCS, specBwdGrad]
  congr 1
  congr 1
  exact if_congr hind rfl rfl

theorem mem_sbWrites {kexp : K → K} {x dy : ℕ → K} {C S pid o : ℕ} {v : K} :
    (o, v) ∈ sbWrites kexp x dy C S pid ↔
      ∃ i, i < S ∧ i < C ∧ o = pid * C + i ∧
        v = sbStore kexp x dy (pid * C) C S i := by
  simp only [sbWrites, List.mem_filterMap, List.mem_range,
    Option.ite_none_right_eq_some, Option.some.injEq, Prod.mk.injEq]
  constructor
  · rintro ⟨i, hi, hlt, ho, hv⟩
    exact ⟨i, hi, by omega, ho.symm, hv.symm⟩
  · rintro ⟨i, hi, hiC, ho, hv⟩
    exact ⟨i, hi, by omega, ho.symm, hv.symm⟩

theorem softmaxBwd_apply (x dy init : ℕ → K) {Rr C r j : ℕ} (hr : r < Rr)
    (hj : j < C) :
    softmaxBwd kexp x dy init Rr C (r * C + j) =
      sbStore kexp x dy (r * C) C (nextPow2 C) j := by
  apply runStores_agree
  · refine ⟨sbWrites kexp x dy C (nextPow2 C) r,
      List.mem_map_of_mem _ (List.mem_range.mpr hr), ?_⟩
    exact mem_sbWrites.mpr ⟨j, lt_of_lt_of_le hj (le_nextPow2 C), hj, rfl, rfl⟩
  · intro ws hws p hp hpo
    obtain ⟨pid, _, rfl⟩ := List.mem_map.mp hws
    obtain ⟨i, _, hiC, ho, hv⟩ := mem_sbWrites.mp (show (p.1, p.2) ∈ _ from hp)
    rw [ho] at hpo
    obtain ⟨hpid, hij⟩ := rowcol_unique hiC hj hpo
    rw [hv, hpid, hij]

/-- Row sum of the specification-side gradient is zero whenever `d ≠ 0`. -/
theorem specBwdGrad_row_sum {x dy : ℕ → K} {rs C : ℕ}
    (hd : specD kexp x rs C ≠ 0) :
    ∑ i ∈ Finset.range C, specBwdGrad kexp x dy rs C i = 0 := by
  have hng : ∑ i ∈ Finset.range C, specNormedGrad kexp x dy rs C i = 0 := by
    have hexpand : ∀ i ∈ Finset.range C,
        specNormedGrad kexp x dy rs C i =
          dy (rs + i) * specE kexp x rs C i * (1 / specD kexp x rs C) +
            specDenomGrad kexp x dy rs C * specE kexp x rs C i := by
      intro i _
      rw [specNormedGrad, specNumGrad]
      ring
    rw [Finset.sum_congr rfl hexpand, Finset.sum_add_distrib,
      ← Finset.sum_mul, ← Finset.mul_sum, ← specInvGrad, ← specD,
      specDenomGrad]
    field_simp
    ring
  have hsplit : ∑ i ∈ Finset.range C, specBwdGrad kexp x dy rs C i
      = (∑ i ∈ Finset.range C, specNormedGrad kexp x dy rs C i) +
        specMaxGrad kexp x dy rs C *
          ∑ i ∈ Finset.range C,
            (if x (rs + i) = rowMax x rs C then (1 : K) else 0) := by
    rw [Finset.mul_sum, ← Finset.sum_add_distrib]
    rfl
  rw [hsplit, hng, specMaxGrad, hng, neg_zero, zero_mul, zero_add]

end SoftmaxBwd

/-- Claim C4: for every row `x` and upstream gradient row `dy`, the gradient
stored by the softmax backward launch equals
`normed_grad + max_grad * indicator(x == row_max)` where the intermediates are
those of specification §4.6; the indicator uses non-strict equality with the
row maximum, so every element tied for the maximum receives the full
`max_grad` contribution. -/
theorem claim_C4_softmax_backward_formula (x dy init : ℕ → ℝ) (Rr C : ℕ)
    (hC : 0 < C) (r : ℕ) (hr : r < Rr) (j : ℕ) (hj : j < C) :
    softmaxBwd Real.exp x dy init Rr C (r * C + j) =
      specBwdGrad Real.exp x dy (r * C) C j := by
  rw [softmaxBwd_apply Real.exp x dy init hr hj]
  exact sbStore_eq_spec Real.exp (by omega) (le_nextPow2 C) hj

/-- Witness for C4 on a concrete 1 × 2 input with a tie for the row maximum. -/
theorem claim_C4_witness :
    0 < 2 ∧ (0 : ℕ) < 1 ∧ (1 : ℕ) < 2 ∧
      softmaxBwd Real.exp (fun _ => (0 : ℝ)) (fun _ => 1) (fun _ => 0) 1 2
          (0 * 2 + 1) =
        specBwdGrad Real.exp (fun _ => (0 : ℝ)) (fun _ => 1) (0 * 2) 2 1 :=
  ⟨by decide, by decide, by decide,
    claim_C4_softmax_backward_formula (fun _ => 0) (fun _ => 1) (fun _ => 0)
      1 2 (by decide) 0 (by decide) 1 (by decide)⟩

/-- Claim C5: for every `R × C` input `x` (nonempty rows) and every upstream
gradient `dy`, each output row of the softmax backward launch sums to `0`
over the row's true extent. -/
theorem claim_C5_softmax_backward_rows_sum_to_zero (x dy init : ℕ → ℝ)
    (Rr C : ℕ) (hC : 0 < C) (r : ℕ) (hr : r < Rr) :
    ∑ j ∈ Finset.range C, softmaxBwd Real.exp x dy init Rr C (r * C + j) = 0 := by
  have hC0 : C ≠ 0 := by omega
  have happly : ∀ j ∈ Finset.range C,
      softmaxBwd Real.exp x dy init Rr C (r * C + j) =
        specBwdGrad Real.exp x dy (r * C) C j := by
    intro j hj
    rw [softmaxBwd_apply Real.exp x dy init hr (Finset.mem_range.mp hj)]
    exact sbStore_eq_spec Real.exp hC0 (le_nextPow2 C) (Finset.mem_range.mp hj)
  rw [Finset.sum_congr rfl happly]
  refine specBwdGrad_row_sum Real.exp ?_
  have : 0 < specD Real.exp x (r * C) C := by
    refine Finset.sum_pos (fun i _ => Real.exp_pos _) ?_
    exact Finset.nonempty_range_iff.mpr hC0
  exact ne_of_gt this

/-- Witness for C5 on a concrete 1 × 2 input. -/
theorem claim_C5_witness :
    0 < 2 ∧ (0 : ℕ) < 1 ∧
      ∑ j ∈ Finset.range 2,
        softmaxBwd Real.exp (fun n => (n : ℝ)) (fun _ => 1) (fun _ => 0) 1 2
          (0 * 2 + j) = 0 :=
  ⟨by decide, by decide,
    claim_C5_softmax_backward_rows_sum_to_zero (fun n => (n : ℝ)) (fun _ => 1)
      (fun _ => 0) 1 2 (by decide) 0 (by decide)⟩

section MatmulDefs

variable {R : Type} [CommRing R]

/-- Row-major flattening of `Y.T.contiguous()` performed by the naive host
`matmul`: the transposed matrix has shape `y_cols × y_rows`; its flat element
at offset `j * y_rows + t` is `Y[t][j]`, i.e. flat element `t * y_cols + j`
of `Y`. -/
def transposeFlat (Y : ℕ → R) (yr yc : ℕ) : ℕ → R :=
  fun n => Y (n % yr * yc + n / yr)

/-- Accumulator entry of one `(x_pid, y_pid)` cell of the tiled
`matmul_kernel` at local position `(i, j)`: the loop runs
`cdiv(x_cols, BLOCK_SIZE_K)` iterations; each iteration loads `a` masked by
`k_offsets[None, :] < x_cols - k * BLOCK_SIZE_K` (fill `0.0`) from pointers
`x_row_start + arange(BX) * x_cols + (k * BK + arange(BK))`, loads `b` masked
by `k_offsets[:, None] < y_rows - k * BLOCK_SIZE_K` (fill `0.0`) from pointers
`(k * BK + arange(BK)) * y_cols + y_col_start + arange(BY)`, and accumulates
`tl.dot(a, b)`.  Only the `K` dimension is masked, exactly as in the source. -/
def tiledAcc (X Y : ℕ → R) (K yr N BX BY BK px py i j : ℕ) : R :=
  ∑ k ∈ Finset.range (cdiv K BK), ∑ t ∈ Finset.range BK,
    (if t < K - k * BK then X (px * BX * K + i * K + (k * BK + t)) else 0) *
      (if t < yr - k * BK then Y ((k * BK + t) * N + (py * BY + j)) else 0)

/-- Writes of one tiled `matmul_kernel` cell: the accumulator tile is stored
at offsets `(x_pid * BX + i) * y_cols + (y_pid * BY + j)` under the 2-D mask
`(output_x_rows[:, None] < x_rows) & (output_y_offsets[None, :] < y_cols)`.
The kernel casts the float32 accumulator to float16 before this store; under
the exact arithmetic of this embedding the cast is the identity (the dtype
mismatch itself is the subject of the C9 theorems). -/
def tiledCellWrites (X Y : ℕ → R) (M K yr N BX BY BK px py : ℕ) :
    List (ℕ × R) :=
  (List.range BX).flatMap fun i =>
    (List.range BY).filterMap fun j =>
      if px * BX + i < M ∧ py * BY + j < N then
        some ((px * BX + i) * N + (py * BY + j),
          tiledAcc X Y K yr N BX BY BK px py i j)
      else none

/-- Launch of the tiled kernel over the 2-D grid
`(cdiv(x_rows, BX), cdiv(y_cols, BY))`. -/
def tiledLaunch (X Y init : ℕ → R) (M K yr N BX BY BK : ℕ) : ℕ → R :=
  runStores init ((List.range (cdiv M BX)).flatMap fun px =>
    (List.range (cdiv N BY)).map fun py =>
      tiledCellWrites X Y M K yr N BX BY BK px py)

/-- Host function `matmul` of the tiled notebook: output allocated with
`torch.zeros(x_rows, y_cols, device="cuda")` (contents 0), block sizes
`BLOCK_SIZE_X = 16`, `BLOCK_SIZE_Y = 16`, `BLOCK_SIZE_K = 32`. -/
def matmulTiled (X Y : ℕ → R) (M K yr N : ℕ) : ℕ → R :=
  tiledLaunch X Y (fun _ => 0) M K yr N 16 16 32

/-- Value computed by one `(x_row_id, y_col_id)` cell of the naive
`matmul_kernel`: load the `X` row (mask `x_row_offset < x_row_start + x_cols`,
fill `0.0`), load the transposed-`Y` row (mask
`y_col_offset < y_col_start + y_rows`, fill `0.0`), multiply elementwise and
reduce with `tl.sum(..., axis=0)`. -/
def naiveVal (X Yt : ℕ → R) (c yr BS i j : ℕ) : R :=
  ∑ t ∈ Finset.range BS,
    (if i * c + t < i * c + c then X (i * c + t) else 0) *
      (if j * yr + t < j * yr + yr then Yt (j * yr + t) else 0)

/-- Writes of one naive cell: a single unmasked store at offset
`x_row_id * y_cols + y_col_id`. -/
def naiveCellWrites (X Yt : ℕ → R) (c yr c2 BS i j : ℕ) : List (ℕ × R) :=
  [(i * c2 + j, naiveVal X Yt c yr BS i j)]

/-- Launch of the naive kernel over the 2-D grid `(x_rows, y_cols)`. -/
def naiveLaunch (X Yt init : ℕ → R) (M c yr c2 BS : ℕ) : ℕ → R :=
  runStores init ((List.range M).flatMap fun i =>
    (List.range c2).map fun j => naiveCellWrites X Yt c yr c2 BS i j)

/-- Host function `matmul` of the naive notebook: output allocated with
`torch.empty` (arbitrary contents `init`), block size
`next_power_of_2(x_cols)`, and `Y` transposed to row-major contiguous layout
before the launch. -/
def matmulNaive (X Y init : ℕ → R) (M c yr c2 : ℕ) : ℕ → R :=
  naiveLaunch X (transposeFlat Y yr c2) init M c yr c2 (nextPow2 c)

theorem transposeFlat_apply (Y : ℕ → R) {yr : ℕ} (yc j t : ℕ) (ht : t < yr) :
    transposeFlat Y yr yc (j * yr + t) = Y (t * yc + j) := by
  have hyr : 0 < yr := by omega
  rw [transposeFlat, Nat.add_comm (j * yr) t, Nat.add_mul_mod_self_right,
    Nat.mod_eq_of_lt ht, Nat.add_mul_div_right _ _ hyr, Nat.div_eq_of_lt ht,
    Nat.zero_add]

theorem naiveVal_transposed (X Y : ℕ → R) {c : ℕ} (yr c2 BS i j : ℕ)
    (hBS : c ≤ BS) :
    naiveVal X (transposeFlat Y yr c2) c yr BS i j =
      ∑ t ∈ Finset.range (min c yr), X (i * c + t) * Y (t * c2 + j) := by
  have hterm : ∀ t ∈ Finset.range BS,
      (if i * c + t < i * c + c then X (i * c + t) else 0) *
        (if j * yr + t < j * yr + yr then transposeFlat Y yr c2 (j * yr + t)
          else 0) =
        if t < min c yr then X (i * c + t) * Y (t * c2 + j) else 0 := by
    intro t _
    by_cases hc : t < c
    · by_cases hy : t < yr
      · rw [if_pos (show i * c + t < i * c + c by omega),
          if_pos (show j * yr + t < j * yr + yr by omega),
          if_pos (lt_min_iff.mpr ⟨hc, hy⟩), transposeFlat_apply Y c2 j t hy]
      · rw [if_pos (show i * c + t < i * c + c by omega),
          if_neg (show ¬(j * yr + t < j * yr + yr) by omega), mul_zero,
          if_neg (fun hmin => hy (lt_min_iff.mp hmin).2)]
    · rw [if_neg (show ¬(i * c + t < i * c + c) by omega), zero_mul,
        if_neg (fun hmin => hc (lt_min_iff.mp hmin).1)]
  rw [naiveVal, Finset.sum_congr rfl hterm]
  exact sum_range_ite_trunc (le_trans (Nat.min_le_left _ _) hBS) _

theorem tiledAcc_eq (X Y : ℕ → R) {K yr N BX BY BK : ℕ} (hBK : 0 < BK)
    (px py i j : ℕ) :
    tiledAcc X Y K yr N BX BY BK px py i j =
      ∑ t ∈ Finset.range (min K yr),
        X ((px * BX + i) * K + t) * Y (t * N + (py * BY + j)) := by
  have hterm : ∀ k ∈ Finset.range (cdiv K BK), ∀ t ∈ Finset.range BK,
      (if t < K - k * BK then X (px * BX * K + i * K + (k * BK + t)) else 0) *
        (if t < yr - k * BK then Y ((k * BK + t) * N + (py * BY + j)) else 0) =
        (fun s => if s < min K yr then
          X ((px * BX + i) * K + s) * Y (s * N + (py * BY + j)) else 0)
          (k * BK + t) := by
    intro k _ t _
    show _ = if k * BK + t < min K yr then
      X ((px * BX + i) * K + (k * BK + t)) *
        Y ((k * BK + t) * N + (py * BY + j)) else 0
    set u := k * BK with hu
    by_cases h1 : u + t < K
    · by_cases h2 : u + t < yr
      · rw [if_pos (show t < K - u by omega), if_pos (show t < yr - u by omega),
          if_pos (lt_min_iff.mpr ⟨h1, h2⟩)]
        have hidx : px * BX * K + i * K + (u + t) =
            (px * BX + i) * K + (u + t) := by ring
        rw [hidx]
      · rw [if_pos (show t < K - u by omega),
          if_neg (show ¬(t < yr - u) by omega), mul_zero,
          if_neg (fun hmin => h2 (lt_min_iff.mp hmin).2)]
    · rw [if_neg (show ¬(t < K - u) by omega), zero_mul,
        if_neg (fun hmin => h1 (lt_min_iff.mp hmin).1)]
  rw [tiledAcc,
    Finset.sum_congr rfl (fun k hk => Finset.sum_congr rfl (hterm k hk)),
    sum_range_blocks BK (cdiv K BK) (fun s => if s < min K yr then
      X ((px * BX + i) * K + s) * Y (s * N + (py * BY + j)) else 0)]
  exact sum_range_ite_trunc
    (le_trans (Nat.min_le_left _ _) (le_cdiv_mul K BK hBK)) _

theorem mem_tiledCellWrites {X Y : ℕ → R} {M K yr N BX BY BK px py o : ℕ}
    {v : R} :
    (o, v) ∈ tiledCellWrites X Y M K yr N BX BY BK px py ↔
      ∃ i j, i < BX ∧ j < BY ∧ px * BX + i < M ∧ py * BY + j < N ∧
        o = (px * BX + i) * N + (py * BY + j) ∧
        v = tiledAcc X Y K yr N BX BY BK px py i j := by
  simp only [tiledCellWrites, List.mem_flatMap, List.mem_filterMap,
    List.mem_range, Option.ite_none_right_eq_some, Option.some.injEq,
    Prod.mk.injEq]
  constructor
  · rintro ⟨i, hi, j, hj, ⟨hrow, hcol⟩, ho, hv⟩
    exact ⟨i, j, hi, hj, hrow, hcol, ho.symm, hv.symm⟩
  · rintro ⟨i, j, hi, hj, hrow, hcol, ho, hv⟩
    exact ⟨i, hi, j, hj, ⟨hrow, hcol⟩, ho.symm, hv.symm⟩

theorem mem_naiveCellWrites {X Yt : ℕ → R} {c yr c2 BS i j o : ℕ} {v : R} :
    (o, v) ∈ naiveCellWrites X Yt c yr c2 BS i j ↔
      o = i * c2 + j ∧ v = naiveVal X Yt c yr BS i j := by
  simp only [naiveCellWrites, List.mem_singleton, Prod.mk.injEq]

theorem tiledLaunch_apply (X Y init : ℕ → R) {M K yr N BX BY BK r c : ℕ}
    (hBX : 0 < BX) (hBY : 0 < BY) (hBK : 0 < BK) (hr : r < M) (hc : c < N) :
    tiledLaunch X Y init M K yr N BX BY BK (r * N + c) =
      ∑ t ∈ Finset.range (min K yr), X (r * K + t) * Y (t * N + c) := by
  apply runStores_agree
  · refine ⟨tiledCellWrites X Y M K yr N BX BY BK (r / BX) (c / BY), ?_, ?_⟩
    · refine List.mem_flatMap.mpr ⟨r / BX,
        List.mem_range.mpr (div_lt_cdiv hBX hr), ?_⟩
      exact List.mem_map_of_mem _ (List.mem_range.mpr (div_lt_cdiv hBY hc))
    · have hrow : r / BX * BX + r % BX = r := by
        rw [Nat.mul_comm]; exact Nat.div_add_mod r BX
      have hcol : c / BY * BY + c % BY = c := by
        rw [Nat.mul_comm]; exact Nat.div_add_mod c BY
      refine mem_tiledCellWrites.mpr ⟨r % BX, c % BY, Nat.mod_lt _ hBX,
        Nat.mod_lt _ hBY, by rw [hrow]; exact hr, by rw [hcol]; exact hc,
        by rw [hrow, hcol], ?_⟩
      rw [tiledAcc_eq X Y hBK, hrow, hcol]
  · intro ws hws p hp hpo
    obtain ⟨px, _, hmem⟩ := List.mem_flatMap.mp hws
    obtain ⟨py, _, rfl⟩ := List.mem_map.mp hmem
    obtain ⟨i, j, hi, hj, hrow, hcol, ho, hv⟩ :=
      mem_tiledCellWrites.mp (show (p.1, p.2) ∈ _ from hp)
    rw [ho] at hpo
    obtain ⟨hre, hce⟩ := rowcol_unique hcol hc hpo
    rw [hv, tiledAcc_eq X Y hBK, hre, hce]

theorem naiveLaunch_apply (X Yt init : ℕ → R) {M c yr c2 BS r j : ℕ}
    (hr : r < M) (hj : j < c2) :
    naiveLaunch X Yt init M c yr c2 BS (r * c2 + j) =
      naiveVal X Yt c yr BS r j := by
  apply runStores_agree
  · refine ⟨naiveCellWrites X Yt c yr c2 BS r j, ?_, ?_⟩
    · refine List.mem_flatMap.mpr ⟨r, List.mem_range.mpr hr, ?_⟩
      exact List.mem_map_of_mem _ (List.mem_range.mpr hj)
    · exact mem_naiveCellWrites.mpr ⟨rfl, rfl⟩
  · intro ws hws p hp hpo
    obtain ⟨i, _, hmem⟩ := List.mem_flatMap.mp hws
    obtain ⟨j2, hj2, rfl⟩ := List.mem_map.mp hmem
    obtain ⟨ho, hv⟩ := mem_naiveCellWrites.mp (show (p.1, p.2) ∈ _ from hp)
    rw [ho] at hpo
    obtain ⟨hie, hje⟩ := rowcol_unique (List.mem_range.mp hj2) hj hpo
    rw [hv, hie, hje]

theorem matmulTiled_apply (X Y : ℕ → R) {M K yr N r c : ℕ} (hr : r < M)
    (hc : c < N) :
    matmulTiled X Y M K yr N (r * N + c) =
      ∑ t ∈ Finset.range (min K yr), X (r * K + t) * Y (t * N + c) :=
  tiledLaunch_apply X Y _ (by omega) (by omega) (by omega) hr hc

theorem matmulNaive_apply (X Y init : ℕ → R) {M c yr c2 r j : ℕ} (hr : r < M)
    (hj : j < c2) :
    matmulNaive X Y init M c yr c2 (r * c2 + j) =
      ∑ t ∈ Finset.range (min c yr), X (r * c + t) * Y (t * c2 + j) := by
  rw [matmulNaive, naiveLaunch_apply X _ init hr hj,
    naiveVal_transposed X Y yr c2 _ r j (le_nextPow2 c)]

end MatmulDefs

/-- Flat contents of `torch.arange(12, ...).reshape(4, 3)` from the naive
matmul notebook's test cell; memory beyond the 12-element extent holds junk
(777), which must not influence any stored result. -/
def arangeX : ℕ → ℤ := fun n => if n < 12 then (n : ℤ) else 777

/-- Flat contents of `torch.arange(6, ...).reshape(3, 2)` from the same test;
junk beyond the 6-element extent. -/
def arangeY : ℕ → ℤ := fun n => if n < 6 then (n : ℤ) else 777

/-- Claim C1: for every `X` of shape `M × K` and `Y` of shape `K × N`, the
tiled matmul kernel and the naive row-times-column kernel both compute,
exactly under exact arithmetic, the same result as an unblocked triple-loop
reference multiply; in particular, for the 4×3 `arange` matrix times the 3×2
`arange` matrix, both kernels reproduce the exact integer reference results
`[[10, 13], [28, 40], [46, 67], [64, 94]]` with zero difference. -/
theorem claim_C1_matmul_matches_reference :
    (∀ (R : Type) [CommRing R] (X Y init : ℕ → R) (M K N r c : ℕ),
      r < M → c < N →
        matmulTiled X Y M K K N (r * N + c) =
            ∑ t ∈ Finset.range K, X (r * K + t) * Y (t * N + c) ∧
          matmulNaive X Y init M K K N (r * N + c) =
            ∑ t ∈ Finset.range K, X (r * K + t) * Y (t * N + c)) ∧
    (matmulTiled arangeX arangeY 4 3 3 2 0 = 10 ∧
      matmulTiled arangeX arangeY 4 3 3 2 1 = 13 ∧
      matmulTiled arangeX arangeY 4 3 3 2 2 = 28 ∧
      matmulTiled arangeX arangeY 4 3 3 2 3 = 40 ∧
      matmulTiled arangeX arangeY 4 3 3 2 4 = 46 ∧
      matmulTiled arangeX arangeY 4 3 3 2 5 = 67 ∧
      matmulTiled arangeX arangeY 4 3 3 2 6 = 64 ∧
      matmulTiled arangeX arangeY 4 3 3 2 7 = 94 ∧
      matmulNaive arangeX arangeY (fun _ => 777) 4 3 3 2 0 = 10 ∧
      matmulNaive arangeX arangeY (fun _ => 777) 4 3 3 2 1 = 13 ∧
      matmulNaive arangeX arangeY (fun _ => 777) 4 3 3 2 2 = 28 ∧
      matmulNaive arangeX arangeY (fun _ => 777) 4 3 3 2 3 = 40 ∧
      matmulNaive arangeX arangeY (fun _ => 777) 4 3 3 2 4 = 46 ∧
      matmulNaive arangeX arangeY (fun _ => 777) 4 3 3 2 5 = 67 ∧
      matmulNaive arangeX arangeY (fun _ => 777) 4 3 3 2 6 = 64 ∧
      matmulNaive arangeX arangeY (fun _ => 777) 4 3 3 2 7 = 94) := by
  constructor
  · intro R _ X Y init M K N r c hr hc
    constructor
    · rw [matmulTiled_apply X Y hr hc, Nat.min_self]
    · rw [matmulNaive_apply X Y init hr hc, Nat.min_self]
  · decide

/-- Witness for C1's general part on a concrete 1 × 1 × 1 instance. -/
theorem claim_C1_witness :
    (0 : ℕ) < 1 ∧
      (matmulTiled (fun _ => (2 : ℤ)) (fun _ => 3) 1 1 1 1 (0 * 1 + 0) =
          ∑ t ∈ Finset.range 1,
            (fun _ => (2 : ℤ)) (0 * 1 + t) * (fun _ => (3 : ℤ)) (t * 1 + 0) ∧
        matmulNaive (fun _ => (2 : ℤ)) (fun _ => 3) (fun _ => 0) 1 1 1 1
            (0 * 1 + 0) =
          ∑ t ∈ Finset.range 1,
            (fun _ => (2 : ℤ)) (0 * 1 + t) * (fun _ => (3 : ℤ)) (t * 1 + 0)) :=
  ⟨by decide,
    claim_C1_matmul_matches_reference.1 ℤ (fun _ => 2) (fun _ => 3)
      (fun _ => 0) 1 1 1 0 0 (by decide) (by decide)⟩

/-- Claim C10 (implicit): for `X` of shape `r × c` and `Y` of shape `r2 × c2`
with `r2 ≠ c` (mismatched inner dimensions), the naive matmul raises no error;
the returned `r × c2` matrix has entry `(i, j)` equal to the dot product of
only the first `min(c, r2)` elements of `X`'s row `i` and `Y`'s column `j`,
because both masked loads fill their out-of-extent tails with 0. -/
theorem claim_C10_naive_matmul_mismatch_truncates (R : Type) [CommRing R]
    (X Y init : ℕ → R) (M c yr c2 : ℕ) (hne : yr ≠ c) (i j : ℕ)
    (hi : i < M) (hj : j < c2) :
    matmulNaive X Y init M c yr c2 (i * c2 + j) =
      ∑ t ∈ Finset.range (min c yr), X (i * c + t) * Y (t * c2 + j) :=
  matmulNaive_apply X Y init hi hj

/-- Buffer `X` of the shape-mismatch scenario: a 1 × 1 matrix containing 2. -/
def cexX : ℕ → ℤ := fun _ => 2

/-- Buffer `Y` of the shape-mismatch scenario: a 2 × 1 matrix containing
3 and 5. -/
def cexY : ℕ → ℤ := fun n => if n = 0 then 3 else 5

/-- Witness for C10 on the concrete mismatched pair `cexX` (1 × 1) and `cexY`
(2 × 1): the single output entry is `2 * 3`, the dot product truncated to
`min(1, 2) = 1` terms. -/
theorem claim_C10_witness :
    (2 : ℕ) ≠ 1 ∧ (0 : ℕ) < 1 ∧
      matmulNaive cexX cexY (fun _ => 0) 1 1 2 1 (0 * 1 + 0) =
        ∑ t ∈ Finset.range (min 1 2), cexX (0 * 1 + t) * cexY (t * 1 + 0) :=
  ⟨by decide, by decide,
    claim_C10_naive_matmul_mismatch_truncates ℤ cexX cexY (fun _ => 0) 1 1 2 1
      (by decide) 0 0 (by decide) (by decide)⟩

/-- Counterexample to claim C8: with `X` of shape 1 × 1 and `Y` of shape
2 × 1 the extents are inconsistent (`x_cols = 1 ≠ 2 = y_rows`), yet the naive
host `matmul` does not fail fast before any grid cell launches: were the claim
true, the zero-initialised output buffer would be left untouched, but the grid
runs and writes entry `(0, 0) = 2 * 3 = 6`. -/
theorem claim_C8_counterexample :
    ¬ ((1 : ℕ) ≠ 2 →
      ∀ o, matmulNaive cexX cexY (fun _ => (0 : ℤ)) 1 1 2 1 o = 0) :=
  fun h => absurd (h (by decide) 0) (by decide)

/-- Claim C8 amended: the host matmul functions perform no shape validation at
all.  With `X`'s column count different from `Y`'s row count no error is
raised and nothing fails fast: both launchers run their full grid, every
in-extent output element is written, and the accumulated dot product is simply
truncated to the shared inner extent `min(x_cols, y_rows)` by the K masks. -/
theorem claim_C8_amended_no_shape_check (R : Type) [CommRing R]
    (X Y init : ℕ → R) (M K yr N : ℕ) (hne : K ≠ yr) (r c : ℕ)
    (hr : r < M) (hc : c < N) :
    matmulTiled X Y M K yr N (r * N + c) =
        ∑ t ∈ Finset.range (min K yr), X (r * K + t) * Y (t * N + c) ∧
      matmulNaive X Y init M K yr N (r * N + c) =
        ∑ t ∈ Finset.range (min K yr), X (r * K + t) * Y (t * N + c) :=
  ⟨matmulTiled_apply X Y hr hc, matmulNaive_apply X Y init hr hc⟩

/-- Witness for the amended C8 on the concrete mismatched pair. -/
theorem claim_C8_witness :
    (1 : ℕ) ≠ 2 ∧ (0 : ℕ) < 1 ∧
      (matmulTiled cexX cexY 1 1 2 1 (0 * 1 + 0) =
          ∑ t ∈ Finset.range (min 1 2), cexX (0 * 1 + t) * cexY (t * 1 + 0) ∧
        matmulNaive cexX cexY (fun _ => 0) 1 1 2 1 (0 * 1 + 0) =
          ∑ t ∈ Finset.range (min 1 2), cexX (0 * 1 + t) * cexY (t * 1 + 0)) :=
  ⟨by decide, by decide,
    claim_C8_amended_no_shape_check ℤ cexX cexY (fun _ => 0) 1 1 2 1
      (by decide) 0 0 (by decide) (by decide)⟩

/-- Mask-true offsets into the `X` buffer accessed by the load
`a = tl.load(x_ptrs, mask=k_offsets[None, :] < x_cols - k * BLOCK_SIZE_K,
other=0.0)` of loop iteration `k` in a grid cell with first program id `px` of
the tiled kernel: only the K dimension is masked, the row dimension is not. -/
def tiledALoadOffsets (K BX BK px k : ℕ) : List ℕ :=
  (List.range BX).flatMap fun i =>
    (List.range BK).filterMap fun t =>
      if t < K - k * BK then some (px * BX * K + i * K + (k * BK + t)) else none

/-- Mask-true offsets into the `Y` buffer accessed by the load
`b = tl.load(y_ptrs, mask=k_offsets[:, None] < y_rows - k * BLOCK_SIZE_K,
other=0.0)` of loop iteration `k` in a grid cell with second program id `py`
of the tiled kernel: only the K dimension is masked, the column dimension is
not. -/
def tiledBLoadOffsets (yr N BY BK py k : ℕ) : List ℕ :=
  (List.range BK).flatMap fun t =>
    (List.range BY).filterMap fun j =>
      if t < yr - k * BK then some ((k * BK + t) * N + (py * BY + j)) else none

/-- Claim C2 fails on the code: the tiled kernel's loads mask only the K
dimension, so the last partially-full row block of `X` and column block of `Y`
are read out of bounds.  Concretely, with the host block sizes (16, 16, 32):
for `X` of shape 1 × 32 the (single) grid cell `px = 0` at loop iteration
`k = 0` performs a mask-true access to `X` offset 32 (= row 1), outside the
`1 * 32`-element extent; for `Y` of shape 32 × 1 the cell `py = 0` at
iteration `k = 0` performs a mask-true access to `Y` offset 32, outside the
`32 * 1`-element extent.  Both cells and the iteration lie inside the launched
grid and loop ranges. -/
theorem claim_C2_tiled_loads_out_of_bounds :
    (0 < cdiv 1 16 ∧ 0 < cdiv 32 32 ∧
      32 ∈ tiledALoadOffsets 32 16 32 0 0 ∧ ¬(32 < 1 * 32)) ∧
    (0 < cdiv 1 16 ∧
      32 ∈ tiledBLoadOffsets 32 1 16 32 0 0 ∧ ¬(32 < 32 * 1)) := by decide

/-- Floating point storage widths appearing in the tiled matmul notebook. -/
inductive DType where
  | float16 : DType
  | float32 : DType
deriving DecidableEq

/-- Dtype of the tiled kernel accumulator:
`tl.zeros((BLOCK_SIZE_X, BLOCK_SIZE_Y), dtype=tl.float32)`. -/
def tiledAccDType : DType := DType.float32

/-- Dtype the tiled kernel casts the accumulator to after the K loop, just
before the masked store: `output = accumulator.to(tl.float16)`. -/
def tiledCastDType : DType := DType.float16

/-- Dtype of the output buffer allocated by the tiled host launcher:
`torch.zeros(x_rows, y_cols, device="cuda")` passes no dtype argument and
therefore uses torch's default dtype, float32. -/
def tiledOutBufDType : DType := DType.float32

/-- Counterexample to claim C9: the dtype the tiled kernel casts the
accumulator to (float16) is not the dtype of the output buffer the host
launcher allocated (float32, the `torch.zeros` default). -/
theorem claim_C9_counterexample : tiledCastDType ≠ tiledOutBufDType := by decide

/-- Claim C9 amended: after the K loop and before the masked store, the tiled
kernel casts its float32 accumulator to float16, while the host allocates a
float32 output buffer; so the cast narrows to half precision rather than
matching the output buffer's dtype (the store then implicitly widens the
float16 values back to float32). -/
theorem claim_C9_amended_cast_narrower_than_buffer :
    tiledAccDType = DType.float32 ∧ tiledCastDType = DType.float16 ∧
      tiledOutBufDType = DType.float32 := by decide

section WritePartitioning

theorem addWrites_disjoint {R : Type} [CommRing R] (x y : ℕ → R) (N S : ℕ)
    {p q o : ℕ} {v w : R} (hpq : p ≠ q)
    (hp : (o, v) ∈ addKernelWrites x y N S p)
    (hq : (o, w) ∈ addKernelWrites x y N S q) : False := by
  obtain ⟨i, hi, hoe, -, -⟩ := mem_addKernelWrites.mp hp
  obtain ⟨i2, hi2, hoe2, -, -⟩ := mem_addKernelWrites.mp hq
  exact hpq (rowcol_unique hi hi2 (hoe.trans hoe2.symm)).1

theorem addWrites_unique {R : Type} [CommRing R] (x y : ℕ → R) {N S : ℕ}
    (hS : 0 < S) {n : ℕ} (hn : n < N) :
    ∃! p, p < cdiv N S ∧ ∃ v, (n, v) ∈ addKernelWrites x y N S p := by
  have hdm : n / S * S + n % S = n := by
    rw [Nat.mul_comm]; exact Nat.div_add_mod n S
  refine ⟨n / S, ⟨div_lt_cdiv hS hn, x n + y n, ?_⟩, ?_⟩
  · exact mem_addKernelWrites.mpr ⟨n % S, Nat.mod_lt _ hS, hdm, hn, rfl⟩
  · rintro p' ⟨hp', v', hmem'⟩
    obtain ⟨i', hi', hoe', -, -⟩ := mem_addKernelWrites.mp hmem'
    exact (rowcol_unique hi' (Nat.mod_lt _ hS) (by rw [hoe']; exact hdm.symm)).1

theorem sfWrites_disjoint (x : ℕ → ℝ) (C S : ℕ) {p q o : ℕ} {v w : ℝ}
    (hpq : p ≠ q) (hp : (o, v) ∈ sfWrites Real.exp x C S p)
    (hq : (o, w) ∈ sfWrites Real.exp x C S q) : False := by
  obtain ⟨i, -, hiC, ho, -⟩ := mem_sfWrites.mp hp
  obtain ⟨i2, -, hi2C, ho2, -⟩ := mem_sfWrites.mp hq
  exact hpq (rowcol_unique hiC hi2C (ho.symm.trans ho2)).1

theorem sfWrites_unique (x : ℕ → ℝ) {Rr C r j : ℕ} (hr : r < Rr)
    (hj : j < C) :
    ∃! p, p < Rr ∧ ∃ v, (r * C + j, v) ∈ sfWrites Real.exp x C (nextPow2 C) p := by
  refine ⟨r, ⟨hr, sfOut Real.exp x (r * C) C (nextPow2 C) j,
    mem_sfWrites.mpr ⟨j, lt_of_lt_of_le hj (le_nextPow2 C), hj, rfl, rfl⟩⟩, ?_⟩
  rintro p' ⟨hp', v', hmem'⟩
  obtain ⟨i', -, hi'C, ho', -⟩ := mem_sfWrites.mp hmem'
  exact (rowcol_unique hi'C hj ho'.symm).1

theorem sbWrites_disjoint (x dy : ℕ → ℝ) (C S : ℕ) {p q o : ℕ} {v w : ℝ}
    (hpq : p ≠ q) (hp : (o, v) ∈ sbWrites Real.exp x dy C S p)
    (hq : (o, w) ∈ sbWrites Real.exp x dy C S q) : False := by
  obtain ⟨i, -, hiC, ho, -⟩ := mem_sbWrites.mp hp
  obtain ⟨i2, -, hi2C, ho2, -⟩ := mem_sbWrites.mp hq
  exact hpq (rowcol_unique hiC hi2C (ho.symm.trans ho2)).1

theorem sbWrites_unique (x dy : ℕ → ℝ) {Rr C r j : ℕ} (hr : r < Rr)
    (hj : j < C) :
    ∃! p, p < Rr ∧
      ∃ v, (r * C + j, v) ∈ sbWrites Real.exp x dy C (nextPow2 C) p := by
  refine ⟨r, ⟨hr, sbStore Real.exp x dy (r * C) C (nextPow2 C) j,
    mem_sbWrites.mpr ⟨j, lt_of_lt_of_le hj (le_nextPow2 C), hj, rfl, rfl⟩⟩, ?_⟩
  rintro p' ⟨hp', v', hmem'⟩
  obtain ⟨i', -, hi'C, ho', -⟩ := mem_sbWrites.mp hmem'
  exact (rowcol_unique hi'C hj ho'.symm).1

theorem naiveWrites_disjoint {R : Type} [CommRing R] (X Yt : ℕ → R)
    (c yr c2 BS : ℕ) {p q : ℕ × ℕ} {o : ℕ} {v w : R}
    (hp2 : p.2 < c2) (hq2 : q.2 < c2) (hpq : p ≠ q)
    (hp : (o, v) ∈ naiveCellWrites X Yt c yr c2 BS p.1 p.2)
    (hq : (o, w) ∈ naiveCellWrites X Yt c yr c2 BS q.1 q.2) : False := by
  obtain ⟨ho, -⟩ := mem_naiveCellWrites.mp hp
  obtain ⟨ho2, -⟩ := mem_naiveCellWrites.mp hq
  obtain ⟨h1, h2⟩ := rowcol_unique hp2 hq2 (ho.symm.trans ho2)
  exact hpq (Prod.ext h1 h2)

theorem naiveWrites_unique {R : Type} [CommRing R] (X Yt : ℕ → R)
    (c yr BS : ℕ) {M c2 r j : ℕ} (hr : r < M) (hj : j < c2) :
    ∃! pc : ℕ × ℕ, (pc.1 < M ∧ pc.2 < c2) ∧
      ∃ v, (r * c2 + j, v) ∈ naiveCellWrites X Yt c yr c2 BS pc.1 pc.2 := by
  refine ⟨(r, j), ⟨⟨hr, hj⟩, naiveVal X Yt c yr BS r j,
    mem_naiveCellWrites.mpr ⟨rfl, rfl⟩⟩, ?_⟩
  rintro ⟨p1, p2⟩ ⟨⟨-, hp2⟩, v', hmem'⟩
  obtain ⟨ho, -⟩ := mem_naiveCellWrites.mp hmem'
  obtain ⟨h1, h2⟩ := rowcol_unique hp2 hj ho.symm
  exact Prod.ext h1 h2

theorem tiledWrites_disjoint {R : Type} [CommRing R] (X Y : ℕ → R)
    (M K yr N BX BY BK : ℕ) {p q : ℕ × ℕ} {o : ℕ} {v w : R} (hpq : p ≠ q)
    (hp : (o, v) ∈ tiledCellWrites X Y M K yr N BX BY BK p.1 p.2)
    (hq : (o, w) ∈ tiledCellWrites X Y M K yr N BX BY BK q.1 q.2) : False := by
  obtain ⟨i, j, hi, hj, -, hcol, ho, -⟩ := mem_tiledCellWrites.mp hp
  obtain ⟨i2, j2, hi2, hj2, -, hcol2, ho2, -⟩ := mem_tiledCellWrites.mp hq
  obtain ⟨hrow, hcoleq⟩ := rowcol_unique hcol hcol2 (ho.symm.trans ho2)
  obtain ⟨hpx, -⟩ := rowcol_unique hi hi2 hrow
  obtain ⟨hpy, -⟩ := rowcol_unique hj hj2 hcoleq
  exact hpq (Prod.ext hpx hpy)

theorem tiledWrites_unique {R : Type} [CommRing R] (X Y : ℕ → R)
    {M K yr N BX BY BK : ℕ} (hBX : 0 < BX) (hBY : 0 < BY) {r c : ℕ}
    (hr : r < M) (hc : c < N) :
    ∃! pc : ℕ × ℕ, (pc.1 < cdiv M BX ∧ pc.2 < cdiv N BY) ∧
      ∃ v, (r * N + c, v) ∈ tiledCellWrites X Y M K yr N BX BY BK pc.1 pc.2 := by
  have hrow : r / BX * BX + r % BX = r := by
    rw [Nat.mul_comm]; exact Nat.div_add_mod r BX
  have hcol : c / BY * BY + c % BY = c := by
    rw [Nat.mul_comm]; exact Nat.div_add_mod c BY
  refine ⟨(r / BX, c / BY), ⟨⟨div_lt_cdiv hBX hr, div_lt_cdiv hBY hc⟩,
    tiledAcc X Y K yr N BX BY BK (r / BX) (c / BY) (r % BX) (c % BY), ?_⟩, ?_⟩
  · exact mem_tiledCellWrites.mpr ⟨r % BX, c % BY, Nat.mod_lt _ hBX,
      Nat.mod_lt _ hBY, by rw [hrow]; exact hr, by rw [hcol]; exact hc,
      by rw [hrow, hcol], rfl⟩
  · rintro ⟨p1, p2⟩ ⟨⟨-, -⟩, v', hmem'⟩
    obtain ⟨i', j', hi', hj', -, hcol', ho', -⟩ := mem_tiledCellWrites.mp hmem'
    obtain ⟨hre, hce⟩ := rowcol_unique hcol' hc ho'.symm
    obtain ⟨h1, -⟩ := rowcol_unique hi' (Nat.mod_lt _ hBX)
      (by rw [hre]; exact hrow.symm)
    obtain ⟨h2, -⟩ := rowcol_unique hj' (Nat.mod_lt _ hBY)
      (by rw [hce]; exact hcol.symm)
    exact Prod.ext h1 h2

end WritePartitioning

/-- Claim C7: for every kernel (vector add, softmax forward, softmax
backward, naive matmul, tiled matmul) and every valid input, the sets of
output offsets actually written (mask-true) by distinct grid cells are
pairwise disjoint, and each destination element inside the logical output
extent is written by exactly one cell of the launched grid. -/
theorem claim_C7_write_partitioning :
    (∀ (R : Type) [CommRing R] (x y : ℕ → R) (N S : ℕ),
      (∀ p q o : ℕ, ∀ v w : R, p ≠ q → (o, v) ∈ addKernelWrites x y N S p →
        (o, w) ∈ addKernelWrites x y N S q → False) ∧
      (0 < S → ∀ n, n < N →
        ∃! p, p < cdiv N S ∧ ∃ v, (n, v) ∈ addKernelWrites x y N S p)) ∧
    (∀ (x : ℕ → ℝ) (Rr C : ℕ),
      (∀ p q o : ℕ, ∀ v w : ℝ, p ≠ q →
        (o, v) ∈ sfWrites Real.exp x C (nextPow2 C) p →
        (o, w) ∈ sfWrites Real.exp x C (nextPow2 C) q → False) ∧
      (∀ r j, r < Rr → j < C → ∃! p, p < Rr ∧
        ∃ v, (r * C + j, v) ∈ sfWrites Real.exp x C (nextPow2 C) p)) ∧
    (∀ (x dy : ℕ → ℝ) (Rr C : ℕ),
      (∀ p q o : ℕ, ∀ v w : ℝ, p ≠ q →
        (o, v) ∈ sbWrites Real.exp x dy C (nextPow2 C) p →
        (o, w) ∈ sbWrites Real.exp x dy C (nextPow2 C) q → False) ∧
      (∀ r j, r < Rr → j < C → ∃! p, p < Rr ∧
        ∃ v, (r * C + j, v) ∈ sbWrites Real.exp x dy C (nextPow2 C) p)) ∧
    (∀ (R : Type) [CommRing R] (X Yt : ℕ → R) (M c yr c2 BS : ℕ),
      (∀ p q : ℕ × ℕ, ∀ o : ℕ, ∀ v w : R, p.2 < c2 → q.2 < c2 → p ≠ q →
        (o, v) ∈ naiveCellWrites X Yt c yr c2 BS p.1 p.2 →
        (o, w) ∈ naiveCellWrites X Yt c yr c2 BS q.1 q.2 → False) ∧
      (∀ r j, r < M → j < c2 → ∃! pc : ℕ × ℕ, (pc.1 < M ∧ pc.2 < c2) ∧
        ∃ v, (r * c2 + j, v) ∈ naiveCellWrites X Yt c yr c2 BS pc.1 pc.2)) ∧
    (∀ (R : Type) [CommRing R] (X Y : ℕ → R) (M K yr N BX BY BK : ℕ),
      (∀ p q : ℕ × ℕ, ∀ o : ℕ, ∀ v w : R, p ≠ q →
        (o, v) ∈ tiledCellWrites X Y M K yr N BX BY BK p.1 p.2 →
        (o, w) ∈ tiledCellWrites X Y M K yr N BX BY BK q.1 q.2 → False) ∧
      (0 < BX → 0 < BY → ∀ r c, r < M → c < N →
        ∃! pc : ℕ × ℕ, (pc.1 < cdiv M BX ∧ pc.2 < cdiv N BY) ∧
          ∃ v, (r * N + c, v) ∈ tiledCellWrites X Y M K yr N BX BY BK pc.1 pc.2)) := by
  refine ⟨?_, ?_, ?_, ?_, ?_⟩
  · intro R _ x y N S
    exact ⟨fun p q o v w hpq hp hq => addWrites_disjoint x y N S hpq hp hq,
      fun hS n hn => addWrites_unique x y hS hn⟩
  · intro x Rr C
    exact ⟨fun p q o v w hpq hp hq => sfWrites_disjoint x C (nextPow2 C) hpq hp hq,
      fun r j hr hj => sfWrites_unique x hr hj⟩
  · intro x dy Rr C
    exact ⟨fun p q o v w hpq hp hq =>
        sbWrites_disjoint x dy C (nextPow2 C) hpq hp hq,
      fun r j hr hj => sbWrites_unique x dy hr hj⟩
  · intro R _ X Yt M c yr c2 BS
    exact ⟨fun p q o v w hp2 hq2 hpq hp hq =>
        naiveWrites_disjoint X Yt c yr c2 BS hp2 hq2 hpq hp hq,
      fun r j hr hj => naiveWrites_unique X Yt c yr BS hr hj⟩
  · intro R _ X Y M K yr N BX BY BK
    exact ⟨fun p q o v w hpq hp hq =>
        tiledWrites_disjoint X Y M K yr N BX BY BK hpq hp hq,
      fun hBX hBY r c hr hc => tiledWrites_unique X Y hBX hBY hr hc⟩

/-- Witness for C7: a concrete exactly-one-writer instance of the vector-add
part, with `N = 3`, `S = 2` (partially masked final block) and offset 1. -/
theorem claim_C7_witness :
    0 < 2 ∧ (1 : ℕ) < 3 ∧
      ∃! p, p < cdiv 3 2 ∧
        ∃ v, ((1 : ℕ), v) ∈ addKernelWrites (fun _ => (1 : ℤ)) (fun _ => 1) 3 2 p :=
  ⟨by decide, by decide,
    (claim_C7_write_partitioning.1 ℤ (fun _ => 1) (fun _ => 1) 3 2).2
      (by decide) 1 (by decide)⟩

end TritonTut
